import Mathlib

/-!
Shallow embedding of `src/merkle-tree.ts` (class `MerkleTree`) from the
luftdeck-backend repository.

The TypeScript class keeps two fields: `root : MerkleNode | null` and
`leaves : string[]` (the ordered member list; "leaves" stores the raw user
ids, not their hashes).  All methods are translated here as pure functions.
Mutating methods are modelled as `MerkleTree → MerkleTree × Option MerkleError`:
the returned state is the state of the object after the call, whether or not
it threw (the TS methods mutate `this` in place and may throw afterwards),
and the second component records the thrown error, if any.

The SHA-256 primitive comes from node's `crypto` package, which is not part
of this repository; it is abstracted as an explicit parameter
`hash : String → String`, and the cryptographic idealisations a few claims
need (injectivity, i.e. collision-freeness) appear as explicit hypotheses.
Every structural theorem below holds for an arbitrary `hash`.
-/

/-- The four error kinds of the spec's taxonomy (§7).  The TS code throws
plain `Error`s with fixed messages; each throw site is mapped to its kind:
`'Cannot build tree with empty user list'` ↦ `invalidInput`,
`'User ID ... already exists in the group'` ↦ `duplicateMember`,
`'User ID ... not found in tree/the group'` ↦ `memberNotFound`,
`'Tree has not been built yet'` ↦ `unbuiltTree`. -/
inductive MerkleError where
  | invalidInput
  | duplicateMember
  | memberNotFound
  | unbuiltTree
deriving DecidableEq

/-- `interface MerkleNode { hash; left?; right?; data? }` -/
inductive MerkleNode where
  | node (hash : String) (left : Option MerkleNode) (right : Option MerkleNode)
      (data : Option String)

/-- The `hash` field of a node. -/
def MerkleNode.hash : MerkleNode → String
  | .node h _ _ _ => h

/-- The `data` field of a node (original user id on leaf nodes). -/
def MerkleNode.data : MerkleNode → Option String
  | .node _ _ _ d => d

/-- `'left' | 'right'` position tag of a proof step. -/
inductive Pos where
  | left
  | right
deriving DecidableEq

/-- One entry of `MerkleProof.proof`. -/
structure ProofStep where
  hash : String
  position : Pos
deriving DecidableEq

/-- `interface MerkleProof { leaf; proof; root }` -/
structure MerkleProof where
  leaf : String
  proof : List ProofStep
  root : String
deriving DecidableEq

/-- The state of a `MerkleTree` object: `private root`, `private leaves`. -/
structure MerkleTree where
  root : Option MerkleNode
  leaves : List String

/-- `combineHashes(left, right) = this.hash(left + right)` (hex-string
concatenation, then one hash). -/
def combineHashes (hash : String → String) (left right : String) : String :=
  hash (left ++ right)

/-- Leaf node creation inside `buildTree`:
`{ hash: this.hash(userId), data: userId }`. -/
def mkLeafNode (hash : String → String) (userId : String) : MerkleNode :=
  .node (hash userId) none none (some userId)

/-- The odd-level padding step of `buildTree`: if the level has odd length,
push `{ hash: lastNode.hash, data: lastNode.data }` (same digest, no rehash;
children are dropped on the duplicate). -/
def dupLastNode (level : List MerkleNode) : List MerkleNode :=
  if level.length % 2 ≠ 0 then
    match level.getLast? with
    | some last => level ++ [MerkleNode.node last.hash none none last.data]
    | none => level
  else level

/-- String-level counterpart of `dupLastNode`, used by `buildProofPath`:
`currentLevel.push(currentLevel[currentLevel.length - 1])` on odd length. -/
def dupLastStr (level : List String) : List String :=
  if level.length % 2 ≠ 0 then
    match level.getLast? with
    | some last => level ++ [last]
    | none => level
  else level

/-- The pairing loop of `buildTree` (`for i := 0; i += 2`): adjacent nodes
are combined into parent nodes.  The caller always supplies an even-length
level (padding has just run), so the one-element leftover case is
unreachable. -/
def pairLevel (hash : String → String) : List MerkleNode → List MerkleNode
  | left :: right :: rest =>
      MerkleNode.node (combineHashes hash left.hash right.hash)
        (some left) (some right) none :: pairLevel hash rest
  | _ => []

/-- The pairing loop of `buildProofPath`, at the hash-string level. -/
def pairHashes (hash : String → String) : List String → List String
  | left :: right :: rest => combineHashes hash left right :: pairHashes hash rest
  | _ => []

theorem pairLevel_length (hash : String → String) (l : List MerkleNode) :
    (pairLevel hash l).length = l.length / 2 := by
  match l with
  | [] => simp [pairLevel]
  | [x] => simp [pairLevel]
  | a :: b :: rest =>
    simp only [pairLevel, List.length_cons]
    rw [pairLevel_length hash rest]
    omega

theorem pairHashes_length (hash : String → String) (l : List String) :
    (pairHashes hash l).length = l.length / 2 := by
  match l with
  | [] => simp [pairHashes]
  | [x] => simp [pairHashes]
  | a :: b :: rest =>
    simp only [pairHashes, List.length_cons]
    rw [pairHashes_length hash rest]
    omega

theorem dupLastNode_length (l : List MerkleNode) :
    (dupLastNode l).length = l.length + l.length % 2 := by
  unfold dupLastNode
  by_cases h : l.length % 2 ≠ 0
  · have hne : l ≠ [] := by intro he; subst he; simp at h
    have : l.getLast?.isSome := List.getLast?_isSome.mpr hne
    match hl : l.getLast? with
    | some last => simp [h, hl]; omega
    | none => rw [hl] at this; simp at this
  · simp [h]; omega

theorem dupLastStr_length (l : List String) :
    (dupLastStr l).length = l.length + l.length % 2 := by
  unfold dupLastStr
  by_cases h : l.length % 2 ≠ 0
  · have hne : l ≠ [] := by intro he; subst he; simp at h
    have : l.getLast?.isSome := List.getLast?_isSome.mpr hne
    match hl : l.getLast? with
    | some last => simp [h, hl]; omega
    | none => rw [hl] at this; simp at this
  · simp [h]; omega

/-- The `while (currentLevel.length > 1)` loop of `buildTree`: pad the level
if odd, pair adjacent nodes, repeat until one node remains. -/
def buildLevels (hash : String → String) (level : List MerkleNode) :
    List MerkleNode :=
  if 1 < level.length then
    buildLevels hash (pairLevel hash (dupLastNode level))
  else level
termination_by level.length
decreasing_by
  simp only [pairLevel_length, dupLastNode_length]
  omega

/-- The same loop at the hash-string level (the projection of `buildLevels`
through `MerkleNode.hash`; `buildProofPath` recomputes exactly these
levels). -/
def buildHashes (hash : String → String) (level : List String) : List String :=
  if 1 < level.length then
    buildHashes hash (pairHashes hash (dupLastStr level))
  else level
termination_by level.length
decreasing_by
  simp only [pairHashes_length, dupLastStr_length]
  omega

/-- `buildTree` after its empty-input check: store the member list, hash the
members into leaf nodes, pad the leaf level if odd, run the bottom-up loop,
and store `currentLevel[0]` as the root (`none` would only arise from an
empty level, which the guard rules out). -/
def buildTreeState (hash : String → String) (userIds : List String) :
    MerkleTree :=
  let level0 := userIds.map (mkLeafNode hash)
  { root := (buildLevels hash (dupLastNode level0)).head?
    leaves := userIds }

/-- `public buildTree(userIds)`: throws `InvalidInputError` on an empty
list (before touching fields), otherwise rebuilds the whole state. -/
def MerkleTree.buildTree (hash : String → String) (t : MerkleTree)
    (userIds : List String) : MerkleTree × Option MerkleError :=
  if userIds.length = 0 then (t, some .invalidInput)
  else (buildTreeState hash userIds, none)

/-- `public getRoot()`: throws `UnbuiltTreeError` when `root` is null. -/
def MerkleTree.getRoot (t : MerkleTree) : Except MerkleError String :=
  match t.root with
  | none => .error .unbuiltTree
  | some r => .ok r.hash

/-- `public getLeaves()`: hashes of the stored member ids. -/
def MerkleTree.getLeaves (hash : String → String) (t : MerkleTree) :
    List String :=
  t.leaves.map hash

/-- `public getUserIds()`: copy of the stored ordered member list. -/
def MerkleTree.getUserIds (t : MerkleTree) : List String :=
  t.leaves

/-- `public isMember(userId)`: `this.leaves.includes(userId)` — exact,
case-sensitive string equality. -/
def MerkleTree.isMember (t : MerkleTree) (userId : String) : Bool :=
  t.leaves.contains userId

/-- The `while (currentLevel.length > 1)` loop of `buildProofPath`: pad the
level if odd, record the sibling step (guarded by
`siblingIndex < currentLevel.length`, which in fact always holds after
padding), pair up, and continue with `currentIndex = floor(currentIndex/2)`. -/
def proofLoop (hash : String → String) (level : List String) (idx : Nat) :
    List ProofStep :=
  if 1 < level.length then
    let padded := dupLastStr level
    let sib := if idx % 2 = 0 then idx + 1 else idx - 1
    let step : List ProofStep :=
      if sib < padded.length then
        [{ hash := padded.getD sib ""
           position := if idx % 2 = 0 then Pos.right else Pos.left }]
      else []
    step ++ proofLoop hash (pairHashes hash padded) (idx / 2)
  else []
termination_by level.length
decreasing_by
  simp only [pairHashes_length, dupLastStr_length]
  omega

/-- `private buildProofPath(leafIndex)`: recompute the leaf-hash level from
the stored member list, pad it once if odd (as `buildTree` does before its
loop), then run the level loop. -/
def buildProofPath (hash : String → String) (leaves : List String)
    (leafIndex : Nat) : List ProofStep :=
  proofLoop hash (dupLastStr (leaves.map hash)) leafIndex

/-- `public generateProof(userId)`: `UnbuiltTreeError` when no root,
`MemberNotFoundError` when `leaves.indexOf(userId) === -1`, otherwise
`{ leaf: hash(userId), proof: buildProofPath(index), root: root.hash }`. -/
def MerkleTree.generateProof (hash : String → String) (t : MerkleTree)
    (userId : String) : Except MerkleError MerkleProof :=
  match t.root with
  | none => .error .unbuiltTree
  | some r =>
    if userId ∈ t.leaves then
      .ok { leaf := hash userId
            proof := buildProofPath hash t.leaves (t.leaves.indexOf userId)
            root := r.hash }
    else .error .memberNotFound

/-- One iteration of the `for (const step of proof.proof)` loop of
`verifyProof`: prepend the sibling when it sits to the left, append it when
it sits to the right, then hash. -/
def verifyFoldStep (hash : String → String) (acc : String)
    (step : ProofStep) : String :=
  match step.position with
  | .left => hash (step.hash ++ acc)
  | .right => hash (acc ++ step.hash)

/-- The whole verification fold, starting from `proof.leaf`. -/
def verifyFold (hash : String → String) (steps : List ProofStep)
    (leaf : String) : String :=
  steps.foldl (verifyFoldStep hash) leaf

/-- `public static verifyProof(proof)`: fold the sibling path and compare
with the claimed root.  Stateless: needs no tree instance. -/
def verifyProof (hash : String → String) (p : MerkleProof) : Bool :=
  verifyFold hash p.proof p.leaf == p.root

/-- Result record of `getStats()`. -/
structure TreeStats where
  totalMembers : Nat
  treeDepth : Nat
  rootHash : String
deriving DecidableEq

/-- `public getStats()`: `UnbuiltTreeError` when no root, else
`{ totalMembers: leaves.length, treeDepth: Math.ceil(Math.log2(...)),
rootHash: root.hash }`.  `Math.ceil(Math.log2 n)` is modelled by its exact
value `Nat.clog 2 n` (for every count this code can reach — the member list
is non-empty whenever a root exists — the double-precision computation is
exact enough to agree with the ideal ceiling). -/
def MerkleTree.getStats (t : MerkleTree) : Except MerkleError TreeStats :=
  match t.root with
  | none => .error .unbuiltTree
  | some r =>
    .ok { totalMembers := t.leaves.length
          treeDepth := Nat.clog 2 t.leaves.length
          rootHash := r.hash }

/-- `public addMember(userId)`: duplicate check first (throw leaves the
state untouched), then push onto `leaves` and rebuild from the pushed
list. -/
def MerkleTree.addMember (hash : String → String) (t : MerkleTree)
    (userId : String) : MerkleTree × Option MerkleError :=
  if t.leaves.contains userId then (t, some .duplicateMember)
  else
    let t1 : MerkleTree := { t with leaves := t.leaves ++ [userId] }
    t1.buildTree hash t1.leaves

/-- `public removeMember(userId)`: `indexOf === -1` check first, then
splice out the first occurrence; if the list became empty set `root = null`,
otherwise rebuild. -/
def MerkleTree.removeMember (hash : String → String) (t : MerkleTree)
    (userId : String) : MerkleTree × Option MerkleError :=
  if userId ∈ t.leaves then
    let t1 : MerkleTree :=
      { t with leaves := t.leaves.eraseIdx (t.leaves.indexOf userId) }
    if t1.leaves.length = 0 then ({ t1 with root := none }, none)
    else t1.buildTree hash t1.leaves
  else (t, some .memberNotFound)

/-- `public updateGroup(userIds)`: plain delegation to `buildTree`. -/
def MerkleTree.updateGroup (hash : String → String) (t : MerkleTree)
    (userIds : List String) : MerkleTree × Option MerkleError :=
  t.buildTree hash userIds

/-- `constructor(userIds = [])`: fields start as `root = null`,
`leaves = []`; a non-empty argument triggers `buildTree` (which cannot
throw on a non-empty list). -/
def newTree (hash : String → String) (userIds : List String) : MerkleTree :=
  if userIds.length > 0 then
    ((MerkleTree.mk none []).buildTree hash userIds).1
  else { root := none, leaves := [] }

/-- One call of the public mutating API, used to describe reachable
states. -/
inductive Op where
  | build (ids : List String)
  | add (id : String)
  | remove (id : String)
  | update (ids : List String)

/-- The state after one API call (the state is kept whether or not the call
threw, exactly as with the in-place-mutating TS methods). -/
def applyOp (hash : String → String) (t : MerkleTree) : Op → MerkleTree
  | .build ids => (t.buildTree hash ids).1
  | .add id => (t.addMember hash id).1
  | .remove id => (t.removeMember hash id).1
  | .update ids => (t.updateGroup hash ids).1

/-- Like `applyOp`, but also keeping the thrown error, for stating
atomicity: a call that throws must leave the state component untouched. -/
def applyOpE (hash : String → String) (t : MerkleTree) :
    Op → MerkleTree × Option MerkleError
  | .build ids => t.buildTree hash ids
  | .add id => t.addMember hash id
  | .remove id => t.removeMember hash id
  | .update ids => t.updateGroup hash ids

/-- The state after a sequence of API calls. -/
def runOps (hash : String → String) (t : MerkleTree) (ops : List Op) :
    MerkleTree :=
  ops.foldl (applyOp hash) t

/-- A state is reachable when some constructor argument followed by some
sequence of API calls produces it. -/
def Reachable (hash : String → String) (t : MerkleTree) : Prop :=
  ∃ init ops, t = runOps hash (newTree hash init) ops

/-- A fixed injective "hash" used to instantiate the abstract hash function
in concrete witness computations: collision-freeness made literal. -/
def tagHash (s : String) : String :=
  "x" ++ s

/-- Replace the character at index `i` of `s` (the spec's "flipping one hex
character" when the new character differs from the old one). -/
def flipHexChar (s : String) (i : Nat) (c : Char) : String :=
  ⟨s.data.set i c⟩

theorem strAppend_cancel_left {a b c : String} (h : a ++ b = a ++ c) :
    b = c := by
  have hd := congrArg String.data h
  simp only [String.data_append] at hd
  have h2 := List.append_cancel_left hd
  exact congrArg String.mk h2

theorem strAppend_cancel_right {a b c : String} (h : a ++ c = b ++ c) :
    a = b := by
  have hd := congrArg String.data h
  simp only [String.data_append] at hd
  have h2 := List.append_cancel_right hd
  exact congrArg String.mk h2

theorem tagHash_injective : Function.Injective tagHash := by
  intro a b h
  exact strAppend_cancel_left h

theorem dupLastNode_map_hash (l : List MerkleNode) :
    (dupLastNode l).map MerkleNode.hash = dupLastStr (l.map MerkleNode.hash) := by
  unfold dupLastNode dupLastStr
  simp only [List.length_map]
  by_cases h : l.length % 2 ≠ 0
  · rw [if_pos h, if_pos h]
    match hl : l.getLast? with
    | some last =>
      rw [List.getLast?_map, hl]
      simp [MerkleNode.hash]
    | none =>
      have he : l = [] := List.getLast?_eq_none_iff.mp hl
      subst he
      simp at h
  · rw [if_neg h, if_neg h]

theorem pairLevel_map_hash (hash : String → String) (l : List MerkleNode) :
    (pairLevel hash l).map MerkleNode.hash
      = pairHashes hash (l.map MerkleNode.hash) := by
  match l with
  | [] => rfl
  | [x] => rfl
  | a :: b :: rest =>
    simp only [pairLevel, pairHashes, List.map_cons]
    rw [pairLevel_map_hash hash rest]
    rfl

theorem buildLevels_map_hash (hash : String → String) (l : List MerkleNode) :
    (buildLevels hash l).map MerkleNode.hash
      = buildHashes hash (l.map MerkleNode.hash) := by
  by_cases h : 1 < l.length
  · rw [buildLevels.eq_1, if_pos h, buildHashes.eq_1,
      if_pos (by simpa using h)]
    rw [buildLevels_map_hash hash (pairLevel hash (dupLastNode l))]
    rw [pairLevel_map_hash, dupLastNode_map_hash]
  · rw [buildLevels.eq_1, if_neg h, buildHashes.eq_1,
      if_neg (by simpa using h)]
termination_by l.length
decreasing_by simp only [pairLevel_length, dupLastNode_length]; omega

theorem dupLastStr_ne_nil {l : List String} (h : l ≠ []) :
    dupLastStr l ≠ [] := by
  intro he
  have hlen := dupLastStr_length l
  rw [he] at hlen
  have h0 : l.length ≠ 0 := fun h0 => h (List.length_eq_zero.mp h0)
  simp at hlen
  omega

theorem dupLastStr_even (l : List String) :
    (dupLastStr l).length % 2 = 0 := by
  have := dupLastStr_length l
  omega

theorem buildHashes_ne_nil (hash : String → String) {l : List String}
    (h : l ≠ []) : buildHashes hash l ≠ [] := by
  by_cases h1 : 1 < l.length
  · rw [buildHashes.eq_1, if_pos h1]
    apply buildHashes_ne_nil
    intro he
    have hc := congrArg List.length he
    simp only [pairHashes_length, dupLastStr_length, List.length_nil] at hc
    omega
  · rw [buildHashes.eq_1, if_neg h1]
    exact h
termination_by l.length
decreasing_by simp only [pairHashes_length, dupLastStr_length]; omega

theorem dupLastStr_getElem? (l : List String) (i : Nat) (hi : i < l.length) :
    (dupLastStr l)[i]? = l[i]? := by
  unfold dupLastStr
  by_cases h : l.length % 2 ≠ 0
  · rw [if_pos h]
    match hl : l.getLast? with
    | some last => rw [List.getElem?_append, if_pos hi]
    | none => rfl
  · rw [if_neg h]

theorem pairHashes_getD (hash : String → String) (l : List String) (j : Nat)
    (hj : 2 * j + 1 < l.length) :
    (pairHashes hash l).getD j ""
      = hash (l.getD (2 * j) "" ++ l.getD (2 * j + 1) "") := by
  match l, j with
  | a :: b :: rest, 0 => simp [pairHashes, combineHashes]
  | a :: b :: rest, j + 1 =>
    have hj' : 2 * j + 1 < rest.length := by
      simp only [List.length_cons] at hj; omega
    simp only [pairHashes]
    have e1 : 2 * (j + 1) = 2 * j + 1 + 1 := by omega
    rw [e1]
    simpa [List.getD_cons_succ] using pairHashes_getD hash rest j hj'
  | [], j => simp at hj
  | [a], j => simp at hj

theorem verifyFold_cons (hash : String → String) (s : ProofStep)
    (rest : List ProofStep) (leaf : String) :
    verifyFold hash (s :: rest) leaf
      = verifyFold hash rest (verifyFoldStep hash leaf s) :=
  rfl

theorem verifyFoldStep_right (hash : String → String) (acc s : String) :
    verifyFoldStep hash acc { hash := s, position := Pos.right }
      = hash (acc ++ s) :=
  rfl

theorem verifyFoldStep_left (hash : String → String) (acc s : String) :
    verifyFoldStep hash acc { hash := s, position := Pos.left }
      = hash (s ++ acc) :=
  rfl

theorem proofLoop_even (hash : String → String) (lvl : List String)
    (idx : Nat) (h1 : 1 < lvl.length) (hpar : idx % 2 = 0)
    (hsib : idx + 1 < (dupLastStr lvl).length) :
    proofLoop hash lvl idx
      = { hash := (dupLastStr lvl).getD (idx + 1) "", position := Pos.right }
          :: proofLoop hash (pairHashes hash (dupLastStr lvl)) (idx / 2) := by
  rw [proofLoop.eq_1, if_pos h1]
  simp [hpar, hsib]

theorem proofLoop_odd (hash : String → String) (lvl : List String)
    (idx : Nat) (h1 : 1 < lvl.length) (hpar : idx % 2 = 1)
    (hsib : idx - 1 < (dupLastStr lvl).length) :
    proofLoop hash lvl idx
      = { hash := (dupLastStr lvl).getD (idx - 1) "", position := Pos.left }
          :: proofLoop hash (pairHashes hash (dupLastStr lvl)) (idx / 2) := by
  rw [proofLoop.eq_1, if_pos h1]
  simp [hpar, hsib]

/-- The heart of the round-trip property: folding the proof path produced
for index `idx` of a level, starting from the level's entry at `idx`,
reproduces the root digest of that level. -/
theorem proofLoop_fold (hash : String → String) (lvl : List String)
    (idx : Nat) (hidx : idx < lvl.length) :
    verifyFold hash (proofLoop hash lvl idx) (lvl.getD idx "")
      = (buildHashes hash lvl).headD "" := by
  by_cases h1 : 1 < lvl.length
  · have hplen := dupLastStr_length lvl
    have heven := dupLastStr_even lvl
    have hidx2 : idx < (dupLastStr lvl).length := by omega
    have hnextlen := pairHashes_length hash (dupLastStr lvl)
    have hidxnext : idx / 2 < (pairHashes hash (dupLastStr lvl)).length := by
      omega
    have hld : lvl.getD idx "" = (dupLastStr lvl).getD idx "" := by
      rw [List.getD_eq_getElem?_getD, List.getD_eq_getElem?_getD,
        dupLastStr_getElem? lvl idx hidx]
    have ih := proofLoop_fold hash (pairHashes hash (dupLastStr lvl))
      (idx / 2) hidxnext
    rw [buildHashes.eq_1, if_pos h1, hld]
    by_cases hpar : idx % 2 = 0
    · have hsib : idx + 1 < (dupLastStr lvl).length := by omega
      have h2j : 2 * (idx / 2) = idx := by omega
      have hpair := pairHashes_getD hash (dupLastStr lvl) (idx / 2) (by omega)
      rw [h2j] at hpair
      rw [proofLoop_even hash lvl idx h1 hpar hsib, verifyFold_cons,
        verifyFoldStep_right, ← hpair]
      exact ih
    · have hpar1 : idx % 2 = 1 := by omega
      have hsib : idx - 1 < (dupLastStr lvl).length := by omega
      have h2j : 2 * (idx / 2) = idx - 1 := by omega
      have hpair := pairHashes_getD hash (dupLastStr lvl) (idx / 2) (by omega)
      rw [h2j] at hpair
      have e1 : idx - 1 + 1 = idx := by omega
      rw [e1] at hpair
      rw [proofLoop_odd hash lvl idx h1 hpar1 hsib, verifyFold_cons,
        verifyFoldStep_left, ← hpair]
      exact ih
  · rw [proofLoop.eq_1, if_neg h1, buildHashes.eq_1, if_neg h1]
    have hidx0 : idx = 0 := by omega
    subst hidx0
    cases lvl with
    | nil => simp at hidx
    | cons a rest =>
      cases rest with
      | nil => rfl
      | cons b r2 =>
        exact absurd (by simp : 1 < (a :: b :: r2).length) h1
termination_by lvl.length
decreasing_by simp only [pairHashes_length, dupLastStr_length]; omega

theorem buildTreeState_leaves (hash : String → String) (ids : List String) :
    (buildTreeState hash ids).leaves = ids :=
  rfl

/-- The root node stored by a successful build, characterised at the
hash-string level. -/
theorem buildTreeState_root (hash : String → String) (ids : List String)
    (hne : ids ≠ []) :
    ∃ n, (buildTreeState hash ids).root = some n
      ∧ n.hash = (buildHashes hash (dupLastStr (ids.map hash))).headD "" := by
  simp only [buildTreeState]
  have hmap : (dupLastNode (ids.map (mkLeafNode hash))).map MerkleNode.hash
      = dupLastStr (ids.map hash) := by
    rw [dupLastNode_map_hash, List.map_map]
    congr 1
  have hb := buildLevels_map_hash hash (dupLastNode (ids.map (mkLeafNode hash)))
  rw [hmap] at hb
  have hne2 : dupLastStr (ids.map hash) ≠ [] :=
    dupLastStr_ne_nil (by simpa using hne)
  have hne3 : buildHashes hash (dupLastStr (ids.map hash)) ≠ [] :=
    buildHashes_ne_nil hash hne2
  match hbl : buildLevels hash (dupLastNode (ids.map (mkLeafNode hash))) with
  | [] =>
    rw [hbl] at hb
    exact absurd hb.symm (by simpa using hne3)
  | n :: rest =>
    refine ⟨n, rfl, ?_⟩
    rw [hbl] at hb
    rw [← hb]
    rfl

theorem buildTreeState_nil (hash : String → String) :
    buildTreeState hash [] = { root := none, leaves := [] } := by
  simp only [buildTreeState, List.map_nil]
  rw [show dupLastNode [] = [] from rfl, buildLevels.eq_1]
  simp

theorem runOps_cons (hash : String → String) (t : MerkleTree) (op : Op)
    (ops : List Op) :
    runOps hash t (op :: ops) = runOps hash (applyOp hash t op) ops :=
  rfl

/-- Every single API call preserves the representation invariant "the state
is exactly what a full rebuild from the current member list produces". -/
theorem applyOp_good (hash : String → String) (t : MerkleTree)
    (ht : t = buildTreeState hash t.leaves) (op : Op) :
    applyOp hash t op = buildTreeState hash (applyOp hash t op).leaves := by
  cases op with
  | build ids =>
    simp only [applyOp, MerkleTree.buildTree]
    by_cases h : ids.length = 0
    · rw [if_pos h]; exact ht
    · rw [if_neg h]; rfl
  | update ids =>
    simp only [applyOp, MerkleTree.updateGroup, MerkleTree.buildTree]
    by_cases h : ids.length = 0
    · rw [if_pos h]; exact ht
    · rw [if_neg h]; rfl
  | add id =>
    simp only [applyOp, MerkleTree.addMember]
    by_cases h : t.leaves.contains id
    · rw [if_pos h]; exact ht
    · rw [if_neg h]
      simp only [MerkleTree.buildTree]
      rw [if_neg (by simp)]
      rfl
  | remove id =>
    simp only [applyOp, MerkleTree.removeMember]
    by_cases h : id ∈ t.leaves
    · rw [if_pos h]
      by_cases h2 : (t.leaves.eraseIdx (t.leaves.indexOf id)).length = 0
      · rw [if_pos h2]
        have he : t.leaves.eraseIdx (t.leaves.indexOf id) = [] :=
          List.length_eq_zero.mp h2
        simp only [he, buildTreeState_nil]
      · rw [if_neg h2]
        simp only [MerkleTree.buildTree]
        rw [if_neg h2]
        rfl
    · rw [if_neg h]; exact ht

/-- The constructor establishes the representation invariant. -/
theorem newTree_good (hash : String → String) (init : List String) :
    newTree hash init = buildTreeState hash (newTree hash init).leaves := by
  unfold newTree
  by_cases h0 : init.length > 0
  · rw [if_pos h0]
    simp only [MerkleTree.buildTree]
    rw [if_neg (by omega)]
    rfl
  · rw [if_neg h0]
    exact (buildTreeState_nil hash).symm

/-- Every reachable state satisfies the representation invariant. -/
theorem reachable_good (hash : String → String) (t : MerkleTree)
    (hr : Reachable hash t) : t = buildTreeState hash t.leaves := by
  obtain ⟨init, ops, rfl⟩ := hr
  suffices h : ∀ s : MerkleTree, s = buildTreeState hash s.leaves →
      runOps hash s ops = buildTreeState hash (runOps hash s ops).leaves by
    exact h _ (newTree_good hash init)
  induction ops with
  | nil => intro s hs; exact hs
  | cons op ops ih =>
    intro s hs
    rw [runOps_cons]
    exact ih _ (applyOp_good hash s hs op)

theorem newTree_eq_build (hash : String → String) (ids : List String)
    (hne : ids ≠ []) : newTree hash ids = buildTreeState hash ids := by
  unfold newTree
  rw [if_pos (List.length_pos.mpr hne)]
  simp only [MerkleTree.buildTree]
  rw [if_neg (fun hx => hne (List.length_eq_zero.mp hx))]

theorem flipHexChar_ne (s : String) (i : Nat) (c : Char)
    (hi : i < s.data.length) (hc : c ≠ s.data.get ⟨i, hi⟩) :
    flipHexChar s i c ≠ s := by
  intro he
  have hd : s.data.set i c = s.data := congrArg String.data he
  have h1 : (s.data.set i c)[i]? = s.data[i]? := congrArg (fun l => l[i]?) hd
  rw [List.getElem?_set_self hi, List.getElem?_eq_getElem hi] at h1
  have h3 : c = s.data[i] := Option.some.inj h1
  have h2 : c = s.data.get ⟨i, hi⟩ := by
    simpa [List.get_eq_getElem] using h3
  exact hc h2

theorem verifyFold_acc_ne (hash : String → String)
    (hinj : Function.Injective hash) (steps : List ProofStep) :
    ∀ a b : String, a ≠ b →
    verifyFold hash steps a ≠ verifyFold hash steps b := by
  induction steps with
  | nil => intro a b h; exact h
  | cons s rest ih =>
    intro a b h
    rw [verifyFold_cons, verifyFold_cons]
    apply ih
    unfold verifyFoldStep
    cases s with
    | mk sh sp =>
      cases sp with
      | left =>
        intro hc
        exact h (strAppend_cancel_left (hinj hc))
      | right =>
        intro hc
        exact h (strAppend_cancel_right (hinj hc))

theorem verifyFold_set_ne (hash : String → String)
    (hinj : Function.Injective hash) (steps : List ProofStep) :
    ∀ (j : Nat) (hj : j < steps.length) (st : ProofStep) (acc : String),
    st.position = (steps.get ⟨j, hj⟩).position →
    st.hash ≠ (steps.get ⟨j, hj⟩).hash →
    verifyFold hash (steps.set j st) acc ≠ verifyFold hash steps acc := by
  induction steps with
  | nil => intro j hj; simp at hj
  | cons s rest ih =>
    intro j hj st acc hpos hhash
    cases j with
    | zero =>
      rw [List.set_cons_zero, verifyFold_cons, verifyFold_cons]
      apply verifyFold_acc_ne hash hinj
      have hpos0 : st.position = s.position := hpos
      have hhash0 : st.hash ≠ s.hash := hhash
      cases st with
      | mk sth stp =>
        cases s with
        | mk sh sp =>
          have hpos1 : stp = sp := hpos0
          subst hpos1
          unfold verifyFoldStep
          cases stp with
          | left =>
            intro hc
            exact hhash0 (strAppend_cancel_right (hinj hc))
          | right =>
            intro hc
            exact hhash0 (strAppend_cancel_left (hinj hc))
    | succ j =>
      rw [List.set_cons_succ, verifyFold_cons, verifyFold_cons]
      exact ih j (by simp only [List.length_cons] at hj; omega) st _ hpos hhash

/-- C1: for every tree in a built state (reachable, non-empty member list)
and every member id in its ordered member list,
`verifyProof(generateProof(id))` returns true — for any hash function. -/
theorem c1_proof_round_trip (hash : String → String) (t : MerkleTree)
    (hr : Reachable hash t) (id : String) (hmem : id ∈ t.leaves) :
    ∃ p, t.generateProof hash id = Except.ok p ∧ verifyProof hash p = true := by
  have ht := reachable_good hash t hr
  have hne : t.leaves ≠ [] := by
    intro h0
    rw [h0] at hmem
    exact absurd hmem (List.not_mem_nil id)
  obtain ⟨n, hroot, hnhash⟩ := buildTreeState_root hash t.leaves hne
  have hroot2 : t.root = some n := by
    conv_lhs => rw [ht]
    exact hroot
  have hidx : t.leaves.indexOf id < t.leaves.length :=
    List.indexOf_lt_length.mpr hmem
  have hget : t.leaves.get ⟨t.leaves.indexOf id, hidx⟩ = id :=
    List.indexOf_get hidx
  have hgetE : t.leaves[t.leaves.indexOf id] = id := by
    rw [List.get_eq_getElem] at hget
    exact hget
  have hmaplen : t.leaves.indexOf id < (t.leaves.map hash).length := by
    simp only [List.length_map]
    exact hidx
  have hseed : (dupLastStr (t.leaves.map hash)).getD (t.leaves.indexOf id) ""
      = hash id := by
    rw [List.getD_eq_getElem?_getD, dupLastStr_getElem? _ _ hmaplen,
      List.getElem?_map, List.getElem?_eq_getElem hidx, hgetE]
    rfl
  have hdup : t.leaves.indexOf id < (dupLastStr (t.leaves.map hash)).length := by
    rw [dupLastStr_length, List.length_map]
    omega
  have hfold := proofLoop_fold hash (dupLastStr (t.leaves.map hash))
    (t.leaves.indexOf id) hdup
  refine ⟨{ leaf := hash id
            proof := buildProofPath hash t.leaves (t.leaves.indexOf id)
            root := n.hash }, ?_, ?_⟩
  · unfold MerkleTree.generateProof
    rw [hroot2]
    simp [hmem]
  · show (verifyFold hash (buildProofPath hash t.leaves (t.leaves.indexOf id))
        (hash id) == n.hash) = true
    unfold buildProofPath
    rw [← hseed, hfold, ← hnhash]
    simp

/-- Witness for C1 at a concrete two-member tree and a concrete injective
hash. -/
theorem c1_proof_round_trip_witness :
    ∃ p, (newTree tagHash ["a", "b"]).generateProof tagHash "a" = Except.ok p
      ∧ verifyProof tagHash p = true :=
  c1_proof_round_trip tagHash (newTree tagHash ["a", "b"])
    ⟨["a", "b"], [], rfl⟩ "a" (by decide)

/-- C2: in every reachable state with a non-empty member list, `getRoot()`
succeeds and equals the root of a fresh tree built from `getUserIds()`:
the root is a pure function of the ordered member list, recomputed wholly
on every mutation, with no other hidden state. -/
theorem c2_root_pure_function (hash : String → String) (t : MerkleTree)
    (hr : Reachable hash t) (hne : t.leaves ≠ []) :
    (∃ r, t.getRoot = Except.ok r)
    ∧ t.getRoot = (newTree hash t.getUserIds).getRoot := by
  have ht := reachable_good hash t hr
  obtain ⟨n, hroot, hnhash⟩ := buildTreeState_root hash t.leaves hne
  have hroot2 : t.root = some n := by
    conv_lhs => rw [ht]
    exact hroot
  constructor
  · refine ⟨n.hash, ?_⟩
    unfold MerkleTree.getRoot
    rw [hroot2]
  · have hids : t.getUserIds = t.leaves := rfl
    rw [hids, newTree_eq_build hash t.leaves hne, ← ht]

/-- Witness for C2 after a genuine mutation sequence. -/
theorem c2_root_pure_function_witness :
    (∃ r, (runOps tagHash (newTree tagHash ["a", "b"]) [Op.add "c"]).getRoot
        = Except.ok r)
    ∧ (runOps tagHash (newTree tagHash ["a", "b"]) [Op.add "c"]).getRoot
        = (newTree tagHash
            (runOps tagHash (newTree tagHash ["a", "b"])
              [Op.add "c"]).getUserIds).getRoot :=
  c2_root_pure_function tagHash
    (runOps tagHash (newTree tagHash ["a", "b"]) [Op.add "c"])
    ⟨["a", "b"], [Op.add "c"], rfl⟩ (by decide)

/-- Full computation of a one-member build: the two duplicated leaves and
the one combine step. -/
theorem buildTreeState_single (hash : String → String) (id : String) :
    buildTreeState hash [id]
      = { root := some (MerkleNode.node (hash (hash id ++ hash id))
            (some (mkLeafNode hash id)) (some (mkLeafNode hash id)) none)
          leaves := [id] } := by
  simp only [buildTreeState, List.map]
  have h1 : dupLastNode [mkLeafNode hash id]
      = [mkLeafNode hash id, mkLeafNode hash id] := by
    simp [dupLastNode, mkLeafNode, MerkleNode.hash, MerkleNode.data]
  rw [h1, buildLevels.eq_1, if_pos (by simp)]
  have h1b : dupLastNode [mkLeafNode hash id, mkLeafNode hash id]
      = [mkLeafNode hash id, mkLeafNode hash id] := by
    simp [dupLastNode]
  have h2 : pairLevel hash [mkLeafNode hash id, mkLeafNode hash id]
      = [MerkleNode.node (hash (hash id ++ hash id))
          (some (mkLeafNode hash id)) (some (mkLeafNode hash id)) none] := rfl
  rw [h1b, h2, buildLevels.eq_1, if_neg (by simp)]
  rfl

/-- C3: a tree built from the single-member list `[id]` has root
`hash(hash id ++ hash id)` (one combine step over the duplicated leaf
digest), and — as long as the hash is collision-free (injective) and `id`
is not the literal self-referential string `hash id ++ hash id` — that
root differs from `hash id` itself. -/
theorem c3_single_member_root (hash : String → String)
    (hinj : Function.Injective hash) (id : String)
    (hfix : id ≠ hash id ++ hash id) :
    (newTree hash [id]).getRoot = Except.ok (hash (hash id ++ hash id))
    ∧ (newTree hash [id]).getRoot ≠ Except.ok (hash id) := by
  have hroot : (newTree hash [id]).getRoot
      = Except.ok (hash (hash id ++ hash id)) := by
    rw [newTree_eq_build hash [id] (by simp), buildTreeState_single]
    rfl
  refine ⟨hroot, ?_⟩
  rw [hroot]
  intro hc
  have h1 : hash (hash id ++ hash id) = hash id := Except.ok.inj hc
  exact hfix (hinj h1).symm

/-- Witness for C3 with a concrete injective hash. -/
theorem c3_single_member_root_witness :
    (newTree tagHash ["a"]).getRoot
        = Except.ok (tagHash (tagHash "a" ++ tagHash "a"))
    ∧ (newTree tagHash ["a"]).getRoot ≠ Except.ok (tagHash "a") :=
  c3_single_member_root tagHash tagHash_injective "a" (by decide)

/-- C4: the root of a tree built from `[a, b, c]` equals the root of one
built from `[a, b, c, c]` — odd levels are padded by duplicating the last
digest (same value, no rehash) before pairing, already at the leaf
level. -/
theorem c4_odd_padding (hash : String → String) (a b c : String) :
    (newTree hash [a, b, c]).getRoot = (newTree hash [a, b, c, c]).getRoot := by
  rw [newTree_eq_build hash [a, b, c] (by simp),
    newTree_eq_build hash [a, b, c, c] (by simp)]
  have h3 : dupLastNode ([a, b, c].map (mkLeafNode hash))
      = [a, b, c, c].map (mkLeafNode hash) := by
    simp [dupLastNode, mkLeafNode, MerkleNode.hash, MerkleNode.data]
  have h4 : dupLastNode ([a, b, c, c].map (mkLeafNode hash))
      = [a, b, c, c].map (mkLeafNode hash) := by
    simp [dupLastNode]
  simp only [buildTreeState]
  rw [h3, h4]
  rfl

/-- C5: building with an empty member list throws `InvalidInputError`;
removing the last remaining member leaves the tree unbuilt
(`root = null`, empty list) and `getRoot()` then throws
`UnbuiltTreeError`. -/
theorem c5_empty_build_unbuilt (hash : String → String) (t : MerkleTree)
    (id : String) (hid : t.leaves = [id]) :
    t.buildTree hash [] = (t, some MerkleError.invalidInput)
    ∧ t.removeMember hash id = ({ root := none, leaves := [] }, none)
    ∧ MerkleTree.getRoot { root := none, leaves := [] }
        = Except.error MerkleError.unbuiltTree := by
  refine ⟨rfl, ?_, rfl⟩
  unfold MerkleTree.removeMember
  rw [if_pos (by rw [hid]; exact List.mem_singleton_self id)]
  simp [hid, List.indexOf_cons_self]

/-- Witness for C5 on a concrete one-member tree. -/
theorem c5_empty_build_unbuilt_witness :
    (newTree tagHash ["a"]).buildTree tagHash []
        = (newTree tagHash ["a"], some MerkleError.invalidInput)
    ∧ (newTree tagHash ["a"]).removeMember tagHash "a"
        = ({ root := none, leaves := [] }, none)
    ∧ MerkleTree.getRoot { root := none, leaves := [] }
        = Except.error MerkleError.unbuiltTree :=
  c5_empty_build_unbuilt tagHash (newTree tagHash ["a"]) "a" (by rfl)

/-- C6: `addMember` of an id already present throws `DuplicateMemberError`
and returns the state unchanged; and, in general, every API call that
throws leaves the prior tree state completely intact. -/
theorem c6_failed_mutation_atomic (hash : String → String) (t : MerkleTree)
    (id : String) (hmem : id ∈ t.leaves) :
    t.addMember hash id = (t, some MerkleError.duplicateMember)
    ∧ ∀ op : Op, (applyOpE hash t op).2.isSome = true
        → (applyOpE hash t op).1 = t := by
  constructor
  · unfold MerkleTree.addMember
    rw [if_pos (List.elem_iff.mpr hmem)]
  · intro op
    cases op with
    | build ids =>
      intro h2
      simp only [applyOpE, MerkleTree.buildTree] at h2 ⊢
      by_cases h : ids.length = 0
      · rw [if_pos h]
      · rw [if_neg h] at h2
        simp at h2
    | update ids =>
      intro h2
      simp only [applyOpE, MerkleTree.updateGroup, MerkleTree.buildTree]
        at h2 ⊢
      by_cases h : ids.length = 0
      · rw [if_pos h]
      · rw [if_neg h] at h2
        simp at h2
    | add id2 =>
      intro h2
      simp only [applyOpE, MerkleTree.addMember] at h2 ⊢
      by_cases h : t.leaves.contains id2
      · rw [if_pos h]
      · rw [if_neg h] at h2
        simp only [MerkleTree.buildTree] at h2
        rw [if_neg (by simp)] at h2
        simp at h2
    | remove id2 =>
      intro h2
      simp only [applyOpE, MerkleTree.removeMember] at h2 ⊢
      by_cases h : id2 ∈ t.leaves
      · rw [if_pos h] at h2 ⊢
        by_cases hlen : (t.leaves.eraseIdx (t.leaves.indexOf id2)).length = 0
        · rw [if_pos hlen] at h2
          simp at h2
        · rw [if_neg hlen] at h2
          simp only [MerkleTree.buildTree] at h2
          rw [if_neg hlen] at h2
          simp at h2
      · rw [if_neg h]
/-- Witness for C6 on a concrete one-member tree. -/
theorem c6_failed_mutation_atomic_witness :
    (newTree tagHash ["a"]).addMember tagHash "a"
        = (newTree tagHash ["a"], some MerkleError.duplicateMember)
    ∧ ∀ op : Op,
        (applyOpE tagHash (newTree tagHash ["a"]) op).2.isSome = true
        → (applyOpE tagHash (newTree tagHash ["a"]) op).1
            = newTree tagHash ["a"] :=
  c6_failed_mutation_atomic tagHash (newTree tagHash ["a"]) "a" (by decide)

theorem clog_two_four : Nat.clog 2 4 = 2 := by
  have e1 : Nat.clog 2 2 = 1 := by
    rw [Nat.clog_of_two_le (by norm_num) (by norm_num)]
    norm_num [Nat.clog_one_right]
  rw [Nat.clog_of_two_le (by norm_num) (by norm_num)]
  norm_num [e1]

/-- C7: `getStats()` on a built (reachable, non-empty) tree reports
`totalMembers` = the un-padded member count n and `treeDepth` =
`ceil(log2 n)` (`Nat.clog 2 n`, characterised as the least d with
`n ≤ 2 ^ d`); a one-member tree reports depth 0, and the concrete
4-member list reports `totalMembers = 4`, `treeDepth = 2`. -/
theorem c7_stats_depth (hash : String → String) (t : MerkleTree)
    (hr : Reachable hash t) (hne : t.leaves ≠ []) :
    (∃ s, t.getStats = Except.ok s
      ∧ s.totalMembers = t.leaves.length
      ∧ s.treeDepth = Nat.clog 2 t.leaves.length
      ∧ t.leaves.length ≤ 2 ^ s.treeDepth
      ∧ ∀ d, t.leaves.length ≤ 2 ^ d → s.treeDepth ≤ d)
    ∧ (∀ id, ∃ s, (newTree hash [id]).getStats = Except.ok s
        ∧ s.totalMembers = 1 ∧ s.treeDepth = 0)
    ∧ (∃ s, (newTree hash
          ["alice123", "bob456", "charlie789", "diana012"]).getStats
        = Except.ok s ∧ s.totalMembers = 4 ∧ s.treeDepth = 2) := by
  have ht := reachable_good hash t hr
  obtain ⟨n, hroot, hnhash⟩ := buildTreeState_root hash t.leaves hne
  have hroot2 : t.root = some n := by
    conv_lhs => rw [ht]
    exact hroot
  refine ⟨⟨{ totalMembers := t.leaves.length
             treeDepth := Nat.clog 2 t.leaves.length
             rootHash := n.hash }, ?_, rfl, rfl, ?_, ?_⟩, ?_, ?_⟩
  · unfold MerkleTree.getStats
    rw [hroot2]
  · exact Nat.le_pow_clog (by norm_num) _
  · intro d hd
    exact (Nat.le_pow_iff_clog_le (by norm_num)).mp hd
  · intro id
    rw [newTree_eq_build hash [id] (by simp), buildTreeState_single]
    refine ⟨_, rfl, rfl, ?_⟩
    show Nat.clog 2 1 = 0
    exact Nat.clog_one_right 2
  · have h4ne : (["alice123", "bob456", "charlie789", "diana012"]
        : List String) ≠ [] := by simp
    obtain ⟨n4, hroot4, _⟩ := buildTreeState_root hash
      ["alice123", "bob456", "charlie789", "diana012"] h4ne
    rw [newTree_eq_build hash _ h4ne]
    refine ⟨{ totalMembers := 4, treeDepth := 2, rootHash := n4.hash },
      ?_, rfl, rfl⟩
    unfold MerkleTree.getStats
    rw [hroot4]
    have hL : (["alice123", "bob456", "charlie789", "diana012"]
        : List String).length = 4 := rfl
    rw [buildTreeState_leaves, hL, clog_two_four]

/-- Witness for C7 on a concrete three-member tree. -/
theorem c7_stats_depth_witness :
    (∃ s, (newTree tagHash ["a", "b", "c"]).getStats = Except.ok s
      ∧ s.totalMembers = (newTree tagHash ["a", "b", "c"]).leaves.length
      ∧ s.treeDepth
          = Nat.clog 2 (newTree tagHash ["a", "b", "c"]).leaves.length
      ∧ (newTree tagHash ["a", "b", "c"]).leaves.length ≤ 2 ^ s.treeDepth
      ∧ ∀ d, (newTree tagHash ["a", "b", "c"]).leaves.length ≤ 2 ^ d
          → s.treeDepth ≤ d)
    ∧ (∀ id, ∃ s, (newTree tagHash [id]).getStats = Except.ok s
        ∧ s.totalMembers = 1 ∧ s.treeDepth = 0)
    ∧ (∃ s, (newTree tagHash
          ["alice123", "bob456", "charlie789", "diana012"]).getStats
        = Except.ok s ∧ s.totalMembers = 4 ∧ s.treeDepth = 2) :=
  c7_stats_depth tagHash (newTree tagHash ["a", "b", "c"])
    ⟨["a", "b", "c"], [], rfl⟩ (by decide)

/-- C8: after any reachable sequence of mutations, `isMember(id)` returns
true exactly when `id` occurs in the current ordered member list, by exact
case-sensitive string equality. -/
theorem c8_isMember_accuracy (hash : String → String) (t : MerkleTree)
    (hr : Reachable hash t) (id : String) :
    t.isMember id = true ↔ id ∈ t.getUserIds := by
  unfold MerkleTree.isMember MerkleTree.getUserIds
  exact List.elem_iff

/-- Witness for C8 after an add followed by a remove. -/
theorem c8_isMember_accuracy_witness :
    (runOps tagHash (newTree tagHash ["a"])
        [Op.add "b", Op.remove "a"]).isMember "b" = true
    ↔ "b" ∈ (runOps tagHash (newTree tagHash ["a"])
        [Op.add "b", Op.remove "a"]).getUserIds :=
  c8_isMember_accuracy tagHash
    (runOps tagHash (newTree tagHash ["a"]) [Op.add "b", Op.remove "a"])
    ⟨["a"], [Op.add "b", Op.remove "a"], rfl⟩ "b"

/-- C9: for every proof accepted by `verifyProof` (under a collision-free,
i.e. injective, hash), flipping one character of `proof.root`, or of the
sibling hash of any proof step (keeping its position), makes `verifyProof`
return false. -/
theorem c9_tamper_detection (hash : String → String)
    (hinj : Function.Injective hash) (p : MerkleProof)
    (hv : verifyProof hash p = true) :
    (∀ i c (hi : i < p.root.data.length), c ≠ p.root.data.get ⟨i, hi⟩ →
      verifyProof hash { p with root := flipHexChar p.root i c } = false)
    ∧ (∀ j (hj : j < p.proof.length) i c
        (hi : i < (p.proof.get ⟨j, hj⟩).hash.data.length),
        c ≠ (p.proof.get ⟨j, hj⟩).hash.data.get ⟨i, hi⟩ →
      verifyProof hash
        { p with proof := (p.proof.set j
            (ProofStep.mk (flipHexChar (p.proof.get ⟨j, hj⟩).hash i c)
              (p.proof.get ⟨j, hj⟩).position)) } = false) := by
  have hfold : verifyFold hash p.proof p.leaf = p.root := by
    unfold verifyProof at hv
    exact eq_of_beq hv
  constructor
  · intro i c hi hc
    show (verifyFold hash p.proof p.leaf == flipHexChar p.root i c) = false
    rw [hfold, beq_eq_false_iff_ne]
    exact (flipHexChar_ne p.root i c hi hc).symm
  · intro j hj i c hi hc
    show (verifyFold hash
        (p.proof.set j { hash := flipHexChar (p.proof.get ⟨j, hj⟩).hash i c
                         position := (p.proof.get ⟨j, hj⟩).position })
        p.leaf == p.root) = false
    rw [beq_eq_false_iff_ne, ← hfold]
    exact verifyFold_set_ne hash hinj p.proof j hj _ p.leaf rfl
      (flipHexChar_ne _ i c hi hc)

/-- Witness for C9: a concrete accepted proof, its root flipped at
character 0, and its only sibling hash flipped at character 0. -/
theorem c9_tamper_detection_witness :
    verifyProof tagHash
      { leaf := "L", proof := [{ hash := "S", position := Pos.left }],
        root := flipHexChar (tagHash ("S" ++ "L")) 0 'y' } = false
    ∧ verifyProof tagHash
      { leaf := "L",
        proof := [({ hash := "S", position := Pos.left } : ProofStep)].set 0
          { hash := flipHexChar "S" 0 'y', position := Pos.left },
        root := tagHash ("S" ++ "L") } = false := by
  have h := c9_tamper_detection tagHash tagHash_injective
    { leaf := "L", proof := [{ hash := "S", position := Pos.left }],
      root := tagHash ("S" ++ "L") } (by decide)
  exact ⟨h.1 0 'y' (by decide) (by decide),
    h.2 0 (by decide) 0 'y' (by decide) (by decide)⟩

/-- C10: constructing with an empty (or absent) member list raises no
error and yields the unbuilt tree: `isMember` is false everywhere,
`getUserIds`/`getLeaves` return empty lists, and `getRoot`,
`generateProof`, `getStats` all throw `UnbuiltTreeError`. -/
theorem c10_unbuilt_constructor (hash : String → String) :
    newTree hash [] = { root := none, leaves := [] }
    ∧ (∀ id, MerkleTree.isMember { root := none, leaves := [] } id = false)
    ∧ MerkleTree.getUserIds { root := none, leaves := [] } = []
    ∧ MerkleTree.getLeaves hash { root := none, leaves := [] } = []
    ∧ MerkleTree.getRoot { root := none, leaves := [] }
        = Except.error MerkleError.unbuiltTree
    ∧ (∀ id, MerkleTree.generateProof hash { root := none, leaves := [] } id
        = Except.error MerkleError.unbuiltTree)
    ∧ MerkleTree.getStats { root := none, leaves := [] }
        = Except.error MerkleError.unbuiltTree :=
  ⟨rfl, fun _ => rfl, rfl, rfl, rfl, fun _ => rfl, rfl⟩
